import Mathlib

/-!
Verification of the indexing-and-retrieval core of the intelligent coding
assistant backend.

The embedding below models the Python services in
`backend/app/services/{code_service, embedding_service, vector_service}.py`.
File text is modelled as `List Char` (splitting on the newline character
mirrors `str.split` on a newline), embedding vectors as `List ℝ`, and every
external effect (file reads, embedding-provider calls, the Qdrant client) as
an explicit outcome value threaded through an environment record: `none` or
`Except.error` stands for a raised exception at the corresponding call site.
-/

namespace CodeAssist

/-! ### Character-list utilities (Python string operations) -/

/-- The whitespace characters stripped by the Python `str.strip` method. -/
def isPySpace (c : Char) : Bool :=
  c = ' ' || c = '\t' || c = '\n' || c = '\r' || c = Char.ofNat 11 || c = Char.ofNat 12

/-- Python `str.strip()`: drop leading and trailing whitespace. -/
def pyStrip (l : List Char) : List Char :=
  ((l.dropWhile isPySpace).reverse.dropWhile isPySpace).reverse

/-- Python `str.startswith(pat)` on character lists (pattern first). -/
def startsWithPat : List Char → List Char → Bool
  | [], _ => true
  | _ :: _, [] => false
  | p :: ps, c :: cs => p = c && startsWithPat ps cs

/-- The split heuristic of `_chunk_code`:
`line.strip().startswith(...)` for the two top-level definition keywords. -/
def isDefOrClassLine (l : List Char) : Bool :=
  startsWithPat ("def ".toList) (pyStrip l) || startsWithPat ("class ".toList) (pyStrip l)

/-- Python `content.split(sep)` for a one-character separator, on the
newline character: always returns at least one (possibly empty) piece. -/
def splitLines : List Char → List (List Char)
  | [] => [[]]
  | c :: cs =>
    if c = '\n' then [] :: splitLines cs
    else
      match splitLines cs with
      | [] => [[c]]
      | l :: ls => (c :: l) :: ls

/-- Python `sep.join(pieces)`. -/
def joinWith (sep : List Char) : List (List Char) → List Char
  | [] => []
  | [l] => l
  | l :: l2 :: ls => l ++ sep ++ joinWith sep (l2 :: ls)

/-! ### Chunker (`CodeService._chunk_code`) -/

/-- One output chunk of `_chunk_code` (line numbers are 1-indexed). -/
structure Chunk where
  text : List Char
  chunk_type : String
  start_line : Nat
  end_line : Nat
deriving DecidableEq, Repr

/-- The split condition of `_chunk_code`, evaluated after the current line
has been appended to the buffer:
`len(current_chunk) >= 50 or (line.strip().startswith(def/class) and len(current_chunk) > 10)`. -/
def shouldSplit (buf : List (List Char)) (line : List Char) : Prop :=
  50 ≤ buf.length ∨ (isDefOrClassLine line = true ∧ 10 < buf.length)

instance (buf : List (List Char)) (line : List Char) : Decidable (shouldSplit buf line) := by
  unfold shouldSplit; infer_instance

/-- The loop of `_chunk_code`: `n` is the total number of lines (used by the
final flush as `end_line = len(lines)`), `i` the 1-based index of the next
line, `buf` the accumulated `current_chunk`, `start` the `current_start`. -/
def chunk_core (n : Nat) : List (List Char) → Nat → List (List Char) → Nat → List Chunk
  | [], _, buf, start =>
    if buf = [] then []
    else [⟨joinWith ['\n'] buf, "code_block", start, n⟩]
  | line :: rest, i, buf, start =>
    let buf1 := buf ++ [line]
    if shouldSplit buf1 line then
      ⟨joinWith ['\n'] buf1, "code_block", start, i⟩ :: chunk_core n rest (i + 1) [] (i + 1)
    else
      chunk_core n rest (i + 1) buf1 start

/-- `CodeService._chunk_code`: split the content into lines and run the
accumulating loop starting at line 1 with an empty buffer. -/
def chunk_code (content : List Char) : List Chunk :=
  let lines := splitLines content
  chunk_core lines.length lines 1 [] 1

/-- Line ranges starting at `start`, each chunk beginning right after the
previous chunk ends, every chunk spanning at least one line, and the whole
list ending exactly at line `n`. -/
def rangesOK (start n : Nat) : List Chunk → Prop
  | [] => start = n + 1
  | c :: cs => c.start_line = start ∧ c.start_line ≤ c.end_line ∧ rangesOK (c.end_line + 1) n cs

/-! ### Stored payloads and the indexing pipeline (`CodeService.index_project`) -/

/-- The payload stored with each vector (stable schema of the spec). -/
structure Payload where
  project_id : String
  file_path : String
  chunk_type : String
  start_line : Nat
  end_line : Nat
  text : List Char
deriving DecidableEq, Repr

/-- A source file as seen by `index_project`: `read_result = none` models an
unreadable/undecodable file (the `open`/`read` call raising). -/
structure SrcFile where
  path : String
  read_result : Option (List Char)

/-- Environment of one `index_project` run.  `embed` is the outcome of
`embedding_service.embed_text` on a chunk text (`none` = the call raised);
`upsert_ok` is the boolean outcome of the single final
`vector_service.add_vectors` call; `ensure_ok` is the (ignored) boolean
outcome of `ensure_collection`. -/
structure IndexEnv where
  files : List SrcFile
  embed : List Char → Option (List ℝ)
  upsert_ok : List (List ℝ) → List Payload → Bool
  ensure_ok : Bool
  project_id : String

/-- The payload built for a chunk of a given file. -/
def mkPayload (pid path : String) (c : Chunk) : Payload :=
  ⟨pid, path, c.chunk_type, c.start_line, c.end_line, c.text⟩

/-- The inner chunk loop of `index_project` for one file: embed each chunk in
order, appending a (vector, payload) pair per chunk; the first embedding
failure raises out of the chunk loop, abandoning the remaining chunks of this
file while keeping the pairs already appended. -/
def embed_chunks (embed : List Char → Option (List ℝ)) (pid path : String) :
    List Chunk → List (List ℝ × Payload)
  | [] => []
  | c :: cs =>
    match embed c.text with
    | none => []
    | some v => (v, mkPayload pid path c) :: embed_chunks embed pid path cs

/-- Per-file processing of `index_project`: the surrounding try/except turns
any failure (unreadable file, or an embedding failure mid-file) into the
pairs accumulated so far for this file. -/
def process_file (embed : List Char → Option (List ℝ)) (pid : String)
    (f : SrcFile) : List (List ℝ × Payload) :=
  match f.read_result with
  | none => []
  | some content => embed_chunks embed pid f.path (chunk_code content)

/-- All (vector, payload) pairs accumulated across the files of a run, in
file order. -/
def index_accum (env : IndexEnv) : List (List ℝ × Payload) :=
  (env.files.map (process_file env.embed env.project_id)).flatten

/-- `CodeService.index_project`: accumulate pairs over all files (per-file
failures caught), ignore the `ensure_collection` boolean, and return the
boolean outcome of the single final `add_vectors` upsert call. -/
def index_project (env : IndexEnv) : Bool :=
  let pairs := index_accum env
  env.upsert_ok (pairs.map Prod.fst) (pairs.map Prod.snd)

/-! ### Embedding gateway (`EmbeddingService`) -/

/-- Errors raised by the embedding service: `config_error` is the
`ValueError` raised when no local model is available, `provider_error` a
re-raised failure of the local encoder. -/
inductive EmbedErr where
  | config_error
  | provider_error
deriving DecidableEq, Repr

/-- Environment of the embedding service. `openai_client` is whether the
remote client was configured at startup; `openai_call` the outcome of one
remote API call (`none` = raised); `local_model` whether the local model
loaded; `local_encode` / `local_encode_batch` the outcomes of running the
local model on one text / a batch of texts. -/
structure EmbedEnv where
  openai_client : Bool
  openai_call : List Char → Option (List ℝ)
  local_model : Bool
  local_encode : List Char → Option (List ℝ)
  local_encode_batch : List (List Char) → Option (List (List ℝ))

/-- `EmbeddingService._embed_with_local_model`: raise the configuration
error when no local model is available, otherwise run the encoder and
re-raise its failure. -/
def embed_with_local_model (env : EmbedEnv) (t : List Char) : Except EmbedErr (List ℝ) :=
  if env.local_model then
    match env.local_encode t with
    | some v => .ok v
    | none => .error .provider_error
  else .error .config_error

/-- `EmbeddingService._embed_with_openai`: try the remote call; on failure
fall back to the local model for this text. -/
def embed_with_openai (env : EmbedEnv) (t : List Char) : Except EmbedErr (List ℝ) :=
  match env.openai_call t with
  | some v => .ok v
  | none => embed_with_local_model env t

/-- `EmbeddingService.embed_text`: use the remote strategy only when the
flag is set and the remote client is configured, otherwise the local one. -/
def embed_text (env : EmbedEnv) (t : List Char) (use_openai : Bool) : Except EmbedErr (List ℝ) :=
  if use_openai ∧ env.openai_client then embed_with_openai env t
  else embed_with_local_model env t

/-- `EmbeddingService._embed_with_local_model_batch`. -/
def embed_with_local_model_batch (env : EmbedEnv) (texts : List (List Char)) :
    Except EmbedErr (List (List ℝ)) :=
  if env.local_model then
    match env.local_encode_batch texts with
    | some vs => .ok vs
    | none => .error .provider_error
  else .error .config_error

/-- `texts[i:i+bs]` slices of the batched loop `range(0, len(texts), bs)`. -/
def sub_batches (bs : Nat) : List α → List (List α)
  | [] => []
  | x :: xs => (x :: xs.take (bs - 1)) :: sub_batches bs (xs.drop (bs - 1))
termination_by l => l.length
decreasing_by
  simp only [List.length_drop, List.length_cons]
  omega

/-- `asyncio.gather` over per-text remote embeddings: results in input
order, the first raised exception propagating. -/
def gather_openai (env : EmbedEnv) : List (List Char) → Except EmbedErr (List (List ℝ))
  | [] => .ok []
  | t :: ts =>
    match embed_with_openai env t with
    | .error e => .error e
    | .ok v =>
      match gather_openai env ts with
      | .error e => .error e
      | .ok vs => .ok (v :: vs)

/-- The batched loop of `embed_texts` on the remote path: gather each
sub-batch in turn and extend the accumulated results in order. -/
def embed_batches (env : EmbedEnv) : List (List (List Char)) → Except EmbedErr (List (List ℝ))
  | [] => .ok []
  | b :: bss =>
    match gather_openai env b with
    | .error e => .error e
    | .ok vs =>
      match embed_batches env bss with
      | .error e => .error e
      | .ok rest => .ok (vs ++ rest)

/-- `EmbeddingService.embed_texts`: on the remote path, process the input in
sub-batches of `bs` texts (default 32) and extend the results in input
order; otherwise one local batch call. -/
def embed_texts (env : EmbedEnv) (texts : List (List Char)) (use_openai : Bool)
    (bs : Nat) : Except EmbedErr (List (List ℝ)) :=
  if use_openai ∧ env.openai_client then embed_batches env (sub_batches bs texts)
  else embed_with_local_model_batch env texts

/-! ### Cosine similarity and ranking (`EmbeddingService`) -/

/-- `np.dot` on two equal-length float vectors (idealised over ℝ). -/
noncomputable def dot (a b : List ℝ) : ℝ := (List.zipWith (fun x y => x * y) a b).sum

/-- `EmbeddingService.compute_similarity`: cosine similarity, 0.0 when either
norm is zero; a length mismatch makes `np.dot` raise, which the surrounding
except-clause turns into 0.0. -/
noncomputable def compute_similarity (a b : List ℝ) : ℝ :=
  if a.length = b.length then
    if Real.sqrt (dot a a) = 0 ∨ Real.sqrt (dot b b) = 0 then 0
    else dot a b / (Real.sqrt (dot a a) * Real.sqrt (dot b b))
  else 0

/-- The scoring loop of `find_most_similar`:
`for i, candidate in enumerate(candidate_embeddings)` starting at index `i`. -/
noncomputable def score_list (q : List ℝ) : Nat → List (List ℝ) → List (Nat × ℝ)
  | _, [] => []
  | i, c :: cs => (i, compute_similarity q c) :: score_list q (i + 1) cs

/-- Stable insertion into a descending-by-score list: an element moves past
another only when the other has a strictly larger score, so equal-score
elements keep their relative order. -/
noncomputable def insert_desc (x : Nat × ℝ) : List (Nat × ℝ) → List (Nat × ℝ)
  | [] => [x]
  | y :: ys => if x.2 < y.2 then y :: insert_desc x ys else x :: y :: ys

/-- Stable descending sort by score, modelling Python
`similarities.sort(key=lambda x: x[1], reverse=True)` (Python list sort is
stable, and a stable sort under a fixed key is unique, so insertion sort
yields exactly its output). -/
noncomputable def sort_desc : List (Nat × ℝ) → List (Nat × ℝ)
  | [] => []
  | x :: xs => insert_desc x (sort_desc xs)

/-- `EmbeddingService.find_most_similar`: score every candidate, stable-sort
descending by score, return the first `top_k` pairs. -/
noncomputable def find_most_similar (q : List ℝ) (cands : List (List ℝ))
    (top_k : Nat) : List (Nat × ℝ) :=
  (sort_desc (score_list q 0 cands)).take top_k

/-! ### Vector store (`VectorService`) -/

/-- A stored point: id, vector, payload. -/
structure Point where
  id : String
  vector : List ℝ
  payload : Payload

/-- Outcome of the Qdrant `create_collection` call: success, an exception
because the collection already exists, or any other exception. -/
inductive CreateOutcome where
  | ok
  | alreadyExists
  | otherError
deriving DecidableEq, Repr

/-- `VectorService.create_collection`: `True` on success; any exception from
the client call is caught and reported as `False`. -/
def create_collection (out : CreateOutcome) : Bool :=
  match out with
  | .ok => true
  | .alreadyExists => false
  | .otherError => false

/-- `VectorService.ensure_collection`: create only when the existence check
says the collection is absent. -/
def ensure_collection (existsAtCheck : Bool) (out : CreateOutcome) : Bool :=
  if existsAtCheck then true else create_collection out

/-- Qdrant upsert semantics for a single point: overwrite the point with the
same id if present, otherwise append. -/
def upsert_point (store : List Point) (p : Point) : List Point :=
  if store.any (fun q => q.id == p.id) then
    store.map (fun q => if q.id == p.id then p else q)
  else store ++ [p]

/-- Qdrant upsert of a batch of points, in order. -/
def upsert_points (store : List Point) (ps : List Point) : List Point :=
  ps.foldl upsert_point store

/-- The `PointStruct` list built by `add_vectors` from `zip(ids, vectors,
payloads)` (zip truncates at the shortest list). -/
def mk_points : List String → List (List ℝ) → List Payload → List Point
  | i :: is, v :: vs, p :: ps => ⟨i, v, p⟩ :: mk_points is vs ps
  | _, _, _ => []

/-- `VectorService.add_vectors` acting on a modelled store: when `ids` is
omitted (or empty, since `if not ids` is also true for an empty list) a
fresh id `gen k` is drawn for the k-th point, one per vector. -/
def add_vectors (gen : Nat → String) (store : List Point) (vectors : List (List ℝ))
    (payloads : List Payload) (ids : Option (List String)) : List Point :=
  let ids1 :=
    match ids with
    | none => (List.range vectors.length).map gen
    | some [] => (List.range vectors.length).map gen
    | some l => l
  upsert_points store (mk_points ids1 vectors payloads)

/-- The effect on the stored collection of one `index_project` run whose
final upsert succeeds, with generated (caller-omitted) ids. -/
def index_project_store (env : IndexEnv) (gen : Nat → String)
    (store : List Point) : List Point :=
  let pairs := index_accum env
  add_vectors gen store (pairs.map Prod.fst) (pairs.map Prod.snd) none

/-! ### Retrieval (`CodeService._get_relevant_context`) -/

/-- One search hit returned by the vector store. -/
structure SearchResult where
  rid : String
  score : ℝ
  payload : Payload

/-- The request `search_vectors` sends to the Qdrant client. -/
structure SearchReq where
  collection : String
  limit : Nat
  score_threshold : Option ℝ

/-- Environment of one retrieval: the outcome of embedding the query and the
outcome of the client search for a given request and query vector (`none` =
the call raised). -/
structure RetrievalEnv where
  embed_query : List Char → Option (List ℝ)
  client_search : SearchReq → List ℝ → Option (List SearchResult)

/-- `VectorService.search_vectors`: return the client results, or an empty
list when the client call raises. -/
def search_vectors (client_result : Option (List SearchResult)) : List SearchResult :=
  match client_result with
  | none => []
  | some rs => rs

/-- `CodeService._get_relevant_context`: embed the query, search the default
collection with limit 3 and score threshold 0.7, keep the truthy text
payloads in result order, and join them with a blank line; any failure is
caught and yields the empty string. -/
noncomputable def get_relevant_context (env : RetrievalEnv) (query : List Char) : List Char :=
  match env.embed_query query with
  | none => []
  | some qv =>
    let results := search_vectors (env.client_search ⟨"code_embeddings", 3, some (7 / 10)⟩ qv)
    joinWith ['\n', '\n']
      ((results.filter (fun r => !r.payload.text.isEmpty)).map (fun r => r.payload.text))

/-! ### Concrete environments used by counterexamples and witnesses -/

/-- Eleven plain lines, a top-level definition on line 12 (which closes the
first chunk because the buffer then holds 12 > 10 lines), and one trailing
line: `chunk_code` yields exactly two chunks, lines 1–12 and line 13. -/
def cex2Content : List Char :=
  ("a\na\na\na\na\na\na\na\na\na\na\ndef f():\nx").toList

/-- An embedder that fails exactly on the text of the second chunk of
`cex2Content` (the single line `x`). -/
def cex2Embed : List Char → Option (List ℝ) :=
  fun t => if t = ['x'] then none else some []

/-- One readable file whose second chunk fails to embed. -/
def cex2Env : IndexEnv :=
  ⟨[⟨"f.py", some cex2Content⟩], cex2Embed, fun _ _ => true, true, "p"⟩

/-- A remote-only embedding configuration whose remote call fails and whose
local model never loaded. -/
def cex5Env : EmbedEnv :=
  ⟨true, fun _ => none, false, fun _ => none, fun _ => none⟩

/-- A fully working embedding configuration used by witnesses. -/
def envW4 : EmbedEnv :=
  ⟨true, fun _ => some [], true, fun _ => some [],
    fun ts => some (ts.map (fun _ => []))⟩

/-- A one-file, one-chunk indexing run used by the re-indexing witness. -/
def envW9 : IndexEnv :=
  ⟨[⟨"f.py", some ['x']⟩], fun _ => some [], fun _ _ => true, true, "p"⟩

/-- A zero-file indexing run. -/
def env0 : IndexEnv :=
  ⟨[], fun _ => none, fun _ _ => true, true, "p"⟩

/-- First-run id generator of the re-indexing scenarios. -/
def genW1 : Nat → String := fun _ => "id1"

/-- Second-run id generator of the re-indexing scenarios. -/
def genW2 : Nat → String := fun _ => "id2"

/-- A retrieval environment whose store returns one result with score 0.8. -/
noncomputable def envW3 : RetrievalEnv :=
  ⟨fun _ => some [], fun _ _ => some [⟨"r1", 8 / 10, ⟨"p", "f.py", "code_block", 1, 1, ['x']⟩⟩]⟩

/-- The strict ordering realised by the stable descending sort on (index,
score) pairs built over candidates with distinct indices: a pair precedes
another when its score is strictly larger, or scores are equal and its
candidate index is smaller (original input order). -/
def simR (a b : Nat × ℝ) : Prop := b.2 < a.2 ∨ (b.2 = a.2 ∧ a.1 < b.1)

/-! ## Lemmas about line splitting and joining -/

theorem splitLines_ne_nil (cs : List Char) : splitLines cs ≠ [] := by
  induction cs with
  | nil => simp [splitLines]
  | cons c cs ih =>
    by_cases h : c = '\n'
    · simp [splitLines, h]
    · simp only [splitLines, if_neg h]
      cases hs : splitLines cs with
      | nil => exact absurd hs ih
      | cons l ls => simp

theorem joinWith_cons (sep t : List Char) {ts : List (List Char)} (h : ts ≠ []) :
    joinWith sep (t :: ts) = t ++ sep ++ joinWith sep ts := by
  cases ts with
  | nil => exact absurd rfl h
  | cons a as => simp [joinWith]

theorem joinWith_splitLines (cs : List Char) : joinWith ['\n'] (splitLines cs) = cs := by
  induction cs with
  | nil => rfl
  | cons c cs ih =>
    by_cases h : c = '\n'
    · subst h
      cases hs : splitLines cs with
      | nil => exact absurd hs (splitLines_ne_nil cs)
      | cons l ls =>
        rw [hs] at ih
        simp [splitLines, hs, joinWith_cons _ _ (List.cons_ne_nil l ls), ih]
    · cases hs : splitLines cs with
      | nil => exact absurd hs (splitLines_ne_nil cs)
      | cons l ls =>
        rw [hs] at ih
        cases ls with
        | nil =>
          simp only [joinWith] at ih
          simp [splitLines, h, hs, joinWith, ih]
        | cons l2 ls2 =>
          rw [joinWith_cons _ _ (List.cons_ne_nil l2 ls2)] at ih
          simp only [splitLines, if_neg h, hs]
          rw [joinWith_cons _ _ (List.cons_ne_nil l2 ls2), ← ih]
          simp

theorem joinWith_append (sep : List Char) :
    ∀ (a b : List (List Char)), a ≠ [] → b ≠ [] →
      joinWith sep (a ++ b) = joinWith sep a ++ sep ++ joinWith sep b := by
  intro a
  induction a with
  | nil => intro b h _; exact absurd rfl h
  | cons x xs ih =>
    intro b _ hb
    cases xs with
    | nil =>
      cases b with
      | nil => exact absurd rfl hb
      | cons y ys => simp [joinWith]
    | cons x2 xs2 =>
      have hxb : (x2 :: xs2) ++ b ≠ [] := by simp
      calc joinWith sep ((x :: x2 :: xs2) ++ b)
          = x ++ sep ++ joinWith sep ((x2 :: xs2) ++ b) := by
            rw [List.cons_append, joinWith_cons _ _ hxb]
        _ = x ++ sep ++ (joinWith sep (x2 :: xs2) ++ sep ++ joinWith sep b) := by
            rw [ih b (List.cons_ne_nil x2 xs2) hb]
        _ = joinWith sep (x :: x2 :: xs2) ++ sep ++ joinWith sep b := by
            rw [joinWith_cons _ _ (List.cons_ne_nil x2 xs2)]
            simp [List.append_assoc]

theorem joinWith_ne_nil_of_two {ls : List (List Char)} (h : 2 ≤ ls.length) :
    joinWith ['\n'] ls ≠ [] := by
  match ls, h with
  | a :: b :: t, _ =>
    rw [joinWith_cons _ _ (List.cons_ne_nil b t)]
    simp

/-! ## Lemmas about the chunker loop -/

theorem chunk_core_ne_nil :
    ∀ (ls : List (List Char)) (n i start : Nat) (buf : List (List Char)),
      buf ≠ [] ∨ ls ≠ [] → chunk_core n ls i buf start ≠ [] := by
  intro ls
  induction ls with
  | nil =>
    intro n i start buf h
    rcases h with h | h
    · simp [chunk_core, h]
    · exact absurd rfl h
  | cons line rest ih =>
    intro n i start buf _
    by_cases hc : shouldSplit (buf ++ [line]) line
    · simp [chunk_core, hc]
    · simp only [chunk_core, if_neg hc]
      exact ih n (i + 1) start (buf ++ [line]) (Or.inl (by simp))

theorem chunk_core_join :
    ∀ (ls : List (List Char)) (n i start : Nat) (buf : List (List Char)),
      buf ≠ [] ∨ ls ≠ [] →
      joinWith ['\n'] ((chunk_core n ls i buf start).map Chunk.text)
        = joinWith ['\n'] (buf ++ ls) := by
  intro ls
  induction ls with
  | nil =>
    intro n i start buf h
    rcases h with h | h
    · simp [chunk_core, h, joinWith]
    · exact absurd rfl h
  | cons line rest ih =>
    intro n i start buf _
    by_cases hc : shouldSplit (buf ++ [line]) line
    · rcases eq_or_ne rest [] with hr | hr
      · subst hr
        simp [chunk_core, hc, joinWith]
      · have hne := chunk_core_ne_nil rest n (i + 1) (i + 1) [] (Or.inr hr)
        have hmapne : (chunk_core n rest (i + 1) [] (i + 1)).map Chunk.text ≠ [] := by
          simpa using hne
        calc joinWith ['\n'] ((chunk_core n (line :: rest) i buf start).map Chunk.text)
            = joinWith ['\n'] (joinWith ['\n'] (buf ++ [line]) ::
                (chunk_core n rest (i + 1) [] (i + 1)).map Chunk.text) := by
              simp [chunk_core, hc]
          _ = joinWith ['\n'] (buf ++ [line]) ++ ['\n'] ++
                joinWith ['\n'] ((chunk_core n rest (i + 1) [] (i + 1)).map Chunk.text) :=
              joinWith_cons _ _ hmapne
          _ = joinWith ['\n'] (buf ++ [line]) ++ ['\n'] ++ joinWith ['\n'] rest := by
              rw [ih n (i + 1) (i + 1) [] (Or.inr hr)]
              simp
          _ = joinWith ['\n'] ((buf ++ [line]) ++ rest) := by
              rw [joinWith_append _ _ _ (by simp) hr]
          _ = joinWith ['\n'] (buf ++ line :: rest) := by
              simp [List.append_assoc]
    · have h2 := ih n (i + 1) start (buf ++ [line]) (Or.inl (by simp))
      simp only [chunk_core, if_neg hc]
      rw [h2]
      simp [List.append_assoc]

theorem chunk_core_ranges :
    ∀ (ls : List (List Char)) (n i start : Nat) (buf : List (List Char)),
      i + ls.length = n + 1 →
      start + buf.length = i →
      rangesOK start n (chunk_core n ls i buf start) := by
  intro ls
  induction ls with
  | nil =>
    intro n i start buf hn hs
    by_cases hb : buf = []
    · subst hb
      simp only [List.length_nil] at hs hn
      simp [chunk_core, rangesOK]
      omega
    · have hlen : 0 < buf.length := List.length_pos.mpr hb
      simp only [List.length_nil] at hn
      simp [chunk_core, hb, rangesOK]
      omega
  | cons line rest ih =>
    intro n i start buf hn hs
    simp only [List.length_cons] at hn
    by_cases hc : shouldSplit (buf ++ [line]) line
    · simp only [chunk_core, if_pos hc]
      refine ⟨rfl, ?_, ?_⟩
      · show start ≤ i
        omega
      · exact ih n (i + 1) (i + 1) [] (by omega) (by simp)
    · simp only [chunk_core, if_neg hc]
      exact ih n (i + 1) start (buf ++ [line]) (by omega) (by simp; omega)

theorem chunk_core_dropLast_text_ne_nil :
    ∀ (ls : List (List Char)) (n i start : Nat) (buf : List (List Char)),
      ∀ c ∈ (chunk_core n ls i buf start).dropLast, c.text ≠ [] := by
  intro ls
  induction ls with
  | nil =>
    intro n i start buf c hc
    by_cases hb : buf = [] <;> simp [chunk_core, hb] at hc
  | cons line rest ih =>
    intro n i start buf c hc
    by_cases hsp : shouldSplit (buf ++ [line]) line
    · simp only [chunk_core, if_pos hsp] at hc
      cases ht : chunk_core n rest (i + 1) [] (i + 1) with
      | nil => rw [ht] at hc; simp at hc
      | cons t ts =>
        rw [ht, List.dropLast_cons_of_ne_nil (List.cons_ne_nil t ts)] at hc
        rcases List.mem_cons.mp hc with hceq | hc2
        · subst hceq
          have hlen : 2 ≤ (buf ++ [line]).length := by
            rcases hsp with h50 | ⟨_, h10⟩ <;> omega
          exact joinWith_ne_nil_of_two hlen
        · have := ih n (i + 1) (i + 1) [] c
          rw [ht] at this
          exact this hc2
    · simp only [chunk_core, if_neg hsp] at hc
      exact ih n (i + 1) start (buf ++ [line]) c hc

/-! ## C1: chunker reconstruction and line ranges -/

/-- C1 counterexample: the claim "no chunk has empty text" is false. On the
empty file content, `_chunk_code` produces exactly one chunk, covering line 1
to line 1, whose text is empty (the same happens for any content whose
trailing remainder after the last split is a single empty line, e.g. a
50-line file ending in a newline). -/
theorem chunk_code_cex :
    ¬ (∀ content : List Char, ∀ c ∈ chunk_code content, c.text ≠ []) := by
  intro h
  exact h [] ⟨[], "code_block", 1, 1⟩ (by decide) rfl

/-- C1 (amended): for every input content, joining the chunk texts with
newlines reconstructs the content exactly; the 1-indexed line ranges are
contiguous and gapless, starting at line 1, each chunk spanning at least one
line, and the last chunk ending at the last line of the file; and every
chunk except possibly the final one has non-empty text. -/
theorem chunk_code_amended (content : List Char) :
    joinWith ['\n'] ((chunk_code content).map Chunk.text) = content ∧
    rangesOK 1 (splitLines content).length (chunk_code content) ∧
    ∀ c ∈ (chunk_code content).dropLast, c.text ≠ [] := by
  refine ⟨?_, ?_, ?_⟩
  · have h := chunk_core_join (splitLines content) (splitLines content).length 1 1 []
      (Or.inr (splitLines_ne_nil content))
    rw [List.nil_append] at h
    rw [chunk_code, h, joinWith_splitLines]
  · exact chunk_core_ranges (splitLines content) (splitLines content).length 1 1 []
      (by omega) (by simp)
  · exact chunk_core_dropLast_text_ne_nil (splitLines content)
      (splitLines content).length 1 1 []

/-! ## Lemmas about the indexing pipeline -/

theorem embed_chunks_all_ok (embed : List Char → Option (List ℝ)) (pid path : String) :
    ∀ (cs : List Chunk), (∀ c ∈ cs, embed c.text ≠ none) →
      (embed_chunks embed pid path cs).length = cs.length := by
  intro cs
  induction cs with
  | nil => intro _; rfl
  | cons c cs ih =>
    intro h
    cases hv : embed c.text with
    | none => exact absurd hv (h c (List.mem_cons_self c cs))
    | some v =>
      simp only [embed_chunks, hv, List.length_cons]
      rw [ih (fun c hc => h c (List.mem_cons_of_mem _ hc))]

theorem embed_chunks_stops_at_failure (embed : List Char → Option (List ℝ))
    (pid path : String) :
    ∀ (cs cs2 : List Chunk) (c : Chunk),
      (∀ c2 ∈ cs, embed c2.text ≠ none) → embed c.text = none →
      embed_chunks embed pid path (cs ++ c :: cs2) = embed_chunks embed pid path cs := by
  intro cs
  induction cs with
  | nil =>
    intro cs2 c _ hc
    simp [embed_chunks, hc]
  | cons c0 cs ih =>
    intro cs2 c h hc
    cases hv : embed c0.text with
    | none => exact absurd hv (h c0 (List.mem_cons_self c0 cs))
    | some v =>
      simp only [List.cons_append, embed_chunks, hv, List.append_eq]
      rw [ih cs2 c (fun c2 h2 => h c2 (List.mem_cons_of_mem _ h2)) hc]

/-! ## C2: per-file failure isolation and the final upsert -/

/-- C2 counterexample: the claim "a failure while processing an individual
file ... is caught and that file is skipped" is false for an embedding
failure that hits a non-first chunk.  On a 13-line file producing two
chunks, with the embedding call failing exactly on the text of the second
chunk, the run still accumulates (and upserts) the vector for the first
chunk of that file, so the failing file is not skipped. -/
theorem index_project_cex :
    (⟨['x'], "code_block", 13, 13⟩ : Chunk) ∈ chunk_code cex2Content ∧
    cex2Embed (['x'] : List Char) = none ∧
    (index_accum cex2Env).length = 1 := by
  refine ⟨by decide, rfl, rfl⟩

/-- C2 (amended): an unreadable file contributes nothing and never aborts
the run (dropping it from the file list leaves the whole run unchanged); a
run over zero files performs the final upsert on zero vectors and returns
its outcome; in general the run returns exactly the boolean outcome of the
single final upsert on the accumulated vectors and payloads; and within one
file, chunks are embedded in order with the first embedding failure
abandoning the rest of that file only (chunks of the file embedded before
the failure are kept). -/
theorem index_project_amended :
    (∀ (env : IndexEnv) (f : SrcFile) (fs1 fs2 : List SrcFile),
        f.read_result = none →
        index_project { env with files := fs1 ++ f :: fs2 }
          = index_project { env with files := fs1 ++ fs2 }) ∧
    (∀ env : IndexEnv, env.files = [] → index_project env = env.upsert_ok [] []) ∧
    (∀ env : IndexEnv,
        index_project env
          = env.upsert_ok ((index_accum env).map Prod.fst) ((index_accum env).map Prod.snd)) ∧
    (∀ (embed : List Char → Option (List ℝ)) (pid path : String)
        (cs cs2 : List Chunk) (c : Chunk),
        (∀ c2 ∈ cs, embed c2.text ≠ none) → embed c.text = none →
        embed_chunks embed pid path (cs ++ c :: cs2) = embed_chunks embed pid path cs ∧
        (embed_chunks embed pid path cs).length = cs.length) := by
  refine ⟨?_, ?_, ?_, ?_⟩
  · intro env f fs1 fs2 hf
    simp [index_project, index_accum, process_file, hf]
  · intro env h
    simp [index_project, index_accum, h]
  · intro env
    rfl
  · intro embed pid path cs cs2 c h hc
    exact ⟨embed_chunks_stops_at_failure embed pid path cs cs2 c h hc,
      embed_chunks_all_ok embed pid path cs h⟩

/-- C2 witness: the amended theorem applied to concrete runs: a zero-file
run reports the outcome of upserting zero vectors (here `true`), and
dropping an unreadable file from a run leaves its result unchanged. -/
theorem index_project_amended_witness :
    index_project env0 = env0.upsert_ok [] [] ∧
    index_project { env0 with files := [] ++ ⟨"bad.py", none⟩ :: [] }
      = index_project { env0 with files := [] ++ [] } := by
  exact ⟨index_project_amended.2.1 env0 rfl,
    index_project_amended.1 env0 ⟨"bad.py", none⟩ [] [] rfl⟩

/-! ## C8: ensure_collection and the creation race -/

/-- C8 counterexample: when the existence check observes the collection as
absent and the subsequent creation fails because the collection now exists
(the benign two-caller race), `ensure_collection` reports `False`, not
success: `create_collection` catches every exception, the already-exists
one included, and returns `False`. -/
theorem ensure_collection_cex :
    ¬ (ensure_collection false CreateOutcome.alreadyExists = true) := by
  decide

/-- C8 (amended): `ensure_collection` returns `True` when the collection
already exists at check time, or when it is absent and the creation call
succeeds; any creation failure — including one raised only because the
collection was created concurrently after the absence check — is reported
as `False`. -/
theorem ensure_collection_amended :
    (∀ out : CreateOutcome, ensure_collection true out = true) ∧
    ensure_collection false CreateOutcome.ok = true ∧
    (∀ out : CreateOutcome, out ≠ CreateOutcome.ok → ensure_collection false out = false) := by
  refine ⟨fun out => rfl, rfl, fun out h => ?_⟩
  cases out with
  | ok => exact absurd rfl h
  | alreadyExists => rfl
  | otherError => rfl

/-- C8 witness: the amended theorem at the concrete race outcome. -/
theorem ensure_collection_amended_witness :
    ensure_collection false CreateOutcome.alreadyExists = false :=
  ensure_collection_amended.2.2 CreateOutcome.alreadyExists (by decide)

/-! ## C5: remote-to-local fallback and the configuration error -/

/-- C5 counterexample: the claim "embedding returns a result whenever at
least one strategy is configured" is false.  With only the Remote strategy
configured, a failing remote call falls through to the local path, which
raises the configuration error because no local model exists — so no result
is produced although a strategy (Remote) is configured. -/
theorem embed_fallback_cex :
    (cex5Env.openai_client = true ∨ cex5Env.local_model = true) ∧
    ¬ ∃ v, embed_text cex5Env [] true = Except.ok v := by
  refine ⟨Or.inl rfl, ?_⟩
  rintro ⟨v, hv⟩
  simp [embed_text, embed_with_openai, embed_with_local_model, cex5Env] at hv

/-- C5 (amended): a failing remote call falls back to the local path for
that individual text, so embedding returns a result whenever the Local
strategy is configured and its encoder succeeds on the text (or the remote
call itself succeeds); when neither strategy is configured, `embed_text`
fails with the configuration error instead of returning a vector. -/
theorem embed_fallback_amended :
    (∀ (env : EmbedEnv) (t : List Char), env.openai_call t = none →
        embed_text env t true = embed_with_local_model env t) ∧
    (∀ (env : EmbedEnv) (t : List Char) (u : Bool) (v : List ℝ),
        env.local_model = true → env.local_encode t = some v →
        ∃ w, embed_text env t u = Except.ok w) ∧
    (∀ (env : EmbedEnv) (t : List Char) (u : Bool),
        env.openai_client = false → env.local_model = false →
        embed_text env t u = Except.error EmbedErr.config_error) := by
  refine ⟨?_, ?_, ?_⟩
  · intro env t hfail
    by_cases hcl : env.openai_client
    · simp [embed_text, hcl, embed_with_openai, hfail]
    · simp [embed_text, hcl]
  · intro env t u v hlm henc
    have hloc : embed_with_local_model env t = Except.ok v := by
      simp [embed_with_local_model, hlm, henc]
    by_cases hrem : u ∧ env.openai_client
    · cases hcall : env.openai_call t with
      | none => exact ⟨v, by simp [embed_text, hrem, embed_with_openai, hcall, hloc]⟩
      | some w => exact ⟨w, by simp [embed_text, hrem, embed_with_openai, hcall]⟩
    · exact ⟨v, by simp [embed_text, hrem, hloc]⟩
  · intro env t u hcl hlm
    have : ¬ (u ∧ env.openai_client) := by simp [hcl]
    simp [embed_text, this, embed_with_local_model, hlm]

/-- C5 witness: the amended theorem at a concrete configuration: the
fully-configured environment returns a result, and the unconfigured
environment fails with the configuration error. -/
theorem embed_fallback_amended_witness :
    (∃ w, embed_text envW4 ['a'] true = Except.ok w) ∧
    embed_text ⟨false, fun _ => none, false, fun _ => none, fun _ => none⟩ ['a'] true
      = Except.error EmbedErr.config_error := by
  exact ⟨embed_fallback_amended.2.1 envW4 ['a'] true [] rfl rfl,
    embed_fallback_amended.2.2 ⟨false, fun _ => none, false, fun _ => none, fun _ => none⟩
      ['a'] true rfl rfl⟩

/-! ## C10: remote flag set with no remote client -/

/-- C10 counterexample: the claim "no error is raised" is false in general:
with the remote flag set and no remote client configured, the call runs the
local path, and when the local model is also unavailable it raises the
configuration error rather than returning a result. -/
theorem embed_text_local_cex :
    ¬ (∀ (env : EmbedEnv) (t : List Char), env.openai_client = false →
        ∃ v, embed_text env t true = Except.ok v) := by
  intro h
  obtain ⟨v, hv⟩ := h ⟨false, fun _ => some [], false, fun _ => none, fun _ => none⟩ [] rfl
  simp [embed_text, embed_with_local_model] at hv

/-- C10 (amended): with the remote flag set but no remote client
configured, `embed_text` silently behaves exactly as the Local strategy on
that text — no remote call is attempted (the result does not depend on the
remote call outcome at all) — so the outcome, result or error, is exactly
that of the Local embedding of the text. -/
theorem embed_text_local_amended :
    (∀ (env : EmbedEnv) (t : List Char), env.openai_client = false →
        embed_text env t true = embed_with_local_model env t) ∧
    (∀ (call call2 : List Char → Option (List ℝ)) (lm : Bool)
        (le : List Char → Option (List ℝ))
        (leb : List (List Char) → Option (List (List ℝ))) (t : List Char),
        embed_text ⟨false, call, lm, le, leb⟩ t true
          = embed_text ⟨false, call2, lm, le, leb⟩ t true) := by
  constructor
  · intro env t hcl
    simp [embed_text, hcl]
  · intro call call2 lm le leb t
    simp [embed_text, embed_with_local_model]

/-- C10 witness: the amended theorem at a concrete environment whose local
encoder succeeds: the call returns exactly the local embedding. -/
theorem embed_text_local_amended_witness :
    embed_text ⟨false, fun _ => none, true, fun _ => some [], fun _ => none⟩ ['a'] true
      = embed_with_local_model ⟨false, fun _ => none, true, fun _ => some [], fun _ => none⟩ ['a'] :=
  embed_text_local_amended.1 ⟨false, fun _ => none, true, fun _ => some [], fun _ => none⟩ ['a'] rfl

/-! ## Lemmas about batched embedding -/

theorem sub_batches_flatten (bs : Nat) :
    ∀ (l : List (List Char)), (sub_batches bs l).flatten = l := by
  have H : ∀ (n : Nat) (l : List (List Char)), l.length ≤ n →
      (sub_batches bs l).flatten = l := by
    intro n
    induction n with
    | zero =>
      intro l h
      have : l = [] := List.length_eq_zero.mp (Nat.le_zero.mp h)
      subst this
      simp [sub_batches]
    | succ n ih =>
      intro l h
      cases l with
      | nil => simp [sub_batches]
      | cons x xs =>
        have hle : (xs.drop (bs - 1)).length ≤ n := by
          simp only [List.length_cons] at h
          simp only [List.length_drop]
          omega
        simp only [sub_batches, List.flatten_cons, ih _ hle, List.cons_append,
          List.take_append_drop]
  intro l
  exact H l.length l le_rfl

theorem gather_openai_ok (env : EmbedEnv) :
    ∀ (ts : List (List Char)) (vs : List (List ℝ)),
      gather_openai env ts = Except.ok vs →
      vs.length = ts.length ∧
      ∀ (i : Nat) (h1 : i < ts.length) (h2 : i < vs.length),
        embed_with_openai env (ts.get ⟨i, h1⟩) = Except.ok (vs.get ⟨i, h2⟩) := by
  intro ts
  induction ts with
  | nil =>
    intro vs h
    simp only [gather_openai] at h
    cases h
    exact ⟨rfl, fun i h1 => absurd h1 (by simp)⟩
  | cons t ts ih =>
    intro vs h
    simp only [gather_openai] at h
    cases hv : embed_with_openai env t with
    | error e => rw [hv] at h; simp at h
    | ok v =>
      rw [hv] at h
      cases hrest : gather_openai env ts with
      | error e => rw [hrest] at h; simp at h
      | ok ws =>
        rw [hrest] at h
        simp only [Except.ok.injEq] at h
        subst h
        obtain ⟨hlen, hget⟩ := ih ws hrest
        refine ⟨by simp [hlen], ?_⟩
        intro i h1 h2
        cases i with
        | zero => simpa using hv
        | succ j =>
          simp only [List.length_cons] at h1 h2
          simpa using hget j (by omega) (by omega)

theorem gather_openai_append (env : EmbedEnv) :
    ∀ (a b : List (List Char)),
      gather_openai env (a ++ b) =
        match gather_openai env a with
        | .error e => .error e
        | .ok va =>
          match gather_openai env b with
          | .error e => .error e
          | .ok vb => .ok (va ++ vb) := by
  intro a b
  induction a with
  | nil =>
    simp only [List.nil_append, gather_openai]
    cases gather_openai env b <;> rfl
  | cons t ts ih =>
    simp only [List.cons_append, gather_openai, List.append_eq, ih]
    cases hv : embed_with_openai env t with
    | error e => rfl
    | ok v =>
      cases gather_openai env ts with
      | error e => rfl
      | ok va =>
        cases gather_openai env b with
        | error e => rfl
        | ok vb => simp

theorem embed_batches_eq_gather (env : EmbedEnv) :
    ∀ (bss : List (List (List Char))),
      embed_batches env bss = gather_openai env bss.flatten := by
  intro bss
  induction bss with
  | nil => rfl
  | cons b rest ih =>
    simp only [embed_batches, List.flatten_cons, gather_openai_append, ih]

/-! ## C4: batch embedding is order-preserving and length-preserving -/

/-- C4: on the remote path the input is cut into sub-batches (size `bs`,
default 32) and the per-sub-batch results are re-extended in the original
input order — the whole batched loop computes exactly the per-text sequence
of remote-with-fallback embeddings in input order; whenever `embed_texts`
returns (on either path), the result has exactly one vector per input text,
and on the remote path the i-th vector is the embedding of the i-th text.
On the local path, the one-per-text shape is the stated contract of the
external batch encoder, taken as the hypothesis `hcontract`. -/
theorem embed_texts_ok :
    (∀ (env : EmbedEnv) (texts : List (List Char)) (bs : Nat),
        0 < bs → env.openai_client = true →
        embed_texts env texts true bs = gather_openai env texts) ∧
    (∀ (env : EmbedEnv) (texts : List (List Char)) (bs : Nat) (vs : List (List ℝ)),
        0 < bs → env.openai_client = true →
        embed_texts env texts true bs = Except.ok vs →
        vs.length = texts.length ∧
        ∀ (i : Nat) (h1 : i < texts.length) (h2 : i < vs.length),
          embed_with_openai env (texts.get ⟨i, h1⟩) = Except.ok (vs.get ⟨i, h2⟩)) ∧
    (∀ (env : EmbedEnv) (texts : List (List Char)) (u : Bool) (bs : Nat)
        (vs : List (List ℝ)),
        (∀ ts ws, env.local_encode_batch ts = some ws → ws.length = ts.length) →
        (u = false ∨ env.openai_client = false) →
        embed_texts env texts u bs = Except.ok vs →
        vs.length = texts.length) := by
  have hremote : ∀ (env : EmbedEnv) (texts : List (List Char)) (bs : Nat),
      env.openai_client = true →
      embed_texts env texts true bs = gather_openai env texts := by
    intro env texts bs hcl
    simp only [embed_texts, hcl, and_self, if_pos trivial, true_and]
    rw [embed_batches_eq_gather, sub_batches_flatten]
  refine ⟨fun env texts bs _ hcl => hremote env texts bs hcl, ?_, ?_⟩
  · intro env texts bs vs _ hcl h
    rw [hremote env texts bs hcl] at h
    exact gather_openai_ok env texts vs h
  · intro env texts u bs vs hcontract hu h
    have hnot : ¬ (u = true ∧ env.openai_client = true) := by
      rcases hu with hu | hu <;> simp [hu]
    rw [embed_texts, if_neg (by simpa using hnot)] at h
    rw [embed_with_local_model_batch] at h
    by_cases hlm : env.local_model
    · rw [if_pos hlm] at h
      cases henc : env.local_encode_batch texts with
      | none => rw [henc] at h; cases h
      | some ws =>
        rw [henc] at h
        cases h
        exact hcontract texts vs henc
    · rw [if_neg hlm] at h
      cases h

/-- C4 witness: the theorem at a concrete environment: a three-text batch
with sub-batch size 2 equals the per-text gather in input order, and a
successful local batch has one vector per text. -/
theorem embed_texts_ok_witness :
    embed_texts envW4 [['a'], ['b'], ['c']] true 2
      = gather_openai envW4 [['a'], ['b'], ['c']] ∧
    ∀ vs, embed_texts envW4 [['a'], ['b'], ['c']] false 2 = Except.ok vs →
      vs.length = 3 := by
  constructor
  · exact embed_texts_ok.1 envW4 [['a'], ['b'], ['c']] 2 (by decide) rfl
  · intro vs h
    exact embed_texts_ok.2.2 envW4 [['a'], ['b'], ['c']] false 2 vs
      (fun ts ws hw => by
        simp only [envW4] at hw
        cases hw
        simp)
      (Or.inl rfl) h

/-! ## C3: retrieval context -/

/-- C3: when the query embeds and the store call returns results (which the
store, per its contract, already restricts to scores at or above the passed
threshold 0.7, sorted descending, at most the passed limit 3 — both visible
in the request built by `get_relevant_context`), the returned text is
exactly the blank-line-separated join of the result texts in result order
(given the stored-payload invariant that texts are non-empty), and at most
3 snippets are joined; an empty result list, a store failure, or an
embedding failure all yield the empty string, never an error. -/
theorem get_relevant_context_ok :
    (∀ (env : RetrievalEnv) (q : List Char) (qv : List ℝ) (rs : List SearchResult),
        env.embed_query q = some qv →
        env.client_search ⟨"code_embeddings", 3, some (7 / 10)⟩ qv = some rs →
        (∀ r ∈ rs, r.payload.text ≠ []) →
        get_relevant_context env q
          = joinWith ['\n', '\n'] (rs.map (fun r => r.payload.text)) ∧
        (rs.length ≤ 3 → (rs.map (fun r => r.payload.text)).length ≤ 3)) ∧
    (∀ (env : RetrievalEnv) (q : List Char) (qv : List ℝ),
        env.embed_query q = some qv →
        env.client_search ⟨"code_embeddings", 3, some (7 / 10)⟩ qv = some [] →
        get_relevant_context env q = []) ∧
    (∀ (env : RetrievalEnv) (q : List Char) (qv : List ℝ),
        env.embed_query q = some qv →
        env.client_search ⟨"code_embeddings", 3, some (7 / 10)⟩ qv = none →
        get_relevant_context env q = []) ∧
    (∀ (env : RetrievalEnv) (q : List Char),
        env.embed_query q = none → get_relevant_context env q = []) := by
  refine ⟨?_, ?_, ?_, ?_⟩
  · intro env q qv rs hq hs hne
    constructor
    · simp only [get_relevant_context, hq, hs, search_vectors]
      have hfil : rs.filter (fun r => !r.payload.text.isEmpty) = rs := by
        rw [List.filter_eq_self]
        intro r hr
        simpa using hne r hr
      rw [hfil]
    · intro h
      simpa using h
  · intro env q qv hq hs
    simp [get_relevant_context, hq, hs, search_vectors, joinWith]
  · intro env q qv hq hs
    simp [get_relevant_context, hq, hs, search_vectors, joinWith]
  · intro env q hq
    simp [get_relevant_context, hq]

/-- C3 witness: the theorem at a concrete environment whose store returns a
single result with score 0.8 and text `x`: the retrieval returns exactly
that text. -/
theorem get_relevant_context_ok_witness :
    get_relevant_context envW3 ['q']
      = joinWith ['\n', '\n']
          (([⟨"r1", 8 / 10, ⟨"p", "f.py", "code_block", 1, 1, ['x']⟩⟩] :
              List SearchResult).map (fun r => r.payload.text)) := by
  refine (get_relevant_context_ok.1 envW3 ['q'] []
    [⟨"r1", 8 / 10, ⟨"p", "f.py", "code_block", 1, 1, ['x']⟩⟩] rfl rfl ?_).1
  intro r hr
  rw [List.mem_singleton] at hr
  subst hr
  simp

/-! ## Lemmas about cosine similarity -/

theorem dot_self_eq_sum_squares (v : List ℝ) :
    dot v v = (v.map (fun x => x * x)).sum := by
  induction v with
  | nil => rfl
  | cons x xs ih => simp [dot, ih]

theorem dot_self_nonneg (v : List ℝ) : 0 ≤ dot v v := by
  rw [dot_self_eq_sum_squares]
  apply List.sum_nonneg
  intro x hx
  obtain ⟨y, _, rfl⟩ := List.mem_map.mp hx
  exact mul_self_nonneg y

theorem dot_self_pos : ∀ (v : List ℝ), (∃ x ∈ v, x ≠ 0) → 0 < dot v v := by
  intro v
  induction v with
  | nil =>
    rintro ⟨x, hx, _⟩
    simp at hx
  | cons y ys ih =>
    rintro ⟨x, hx, hx0⟩
    have hd : dot (y :: ys) (y :: ys) = y * y + dot ys ys := by simp [dot]
    rcases List.mem_cons.mp hx with rfl | hmem
    · have h1 : 0 < x * x := mul_self_pos.mpr hx0
      have h2 := dot_self_nonneg ys
      rw [hd]
      linarith
    · have h1 : 0 < dot ys ys := ih ⟨x, hmem, hx0⟩
      have h2 : 0 ≤ y * y := mul_self_nonneg y
      rw [hd]
      linarith

/-! ## C6: cosine similarity -/

/-- C6: `compute_similarity` equals the dot product divided by the product
of the two Euclidean norms whenever both norms are non-zero (and the
lengths agree, since mismatched lengths make `np.dot` raise, which is
caught and returned as 0.0); a vector with any non-zero component has
self-similarity exactly 1 (exact over the idealised reals, "within floating
tolerance" in the float implementation); and the result is 0.0 whenever
either norm is zero.  The operation is a total function — it never
raises. -/
theorem compute_similarity_ok :
    (∀ (a b : List ℝ), a.length = b.length →
        Real.sqrt (dot a a) ≠ 0 → Real.sqrt (dot b b) ≠ 0 →
        compute_similarity a b
          = dot a b / (Real.sqrt (dot a a) * Real.sqrt (dot b b))) ∧
    (∀ v : List ℝ, (∃ x ∈ v, x ≠ 0) → compute_similarity v v = 1) ∧
    (∀ (a b : List ℝ), Real.sqrt (dot a a) = 0 ∨ Real.sqrt (dot b b) = 0 →
        compute_similarity a b = 0) := by
  refine ⟨?_, ?_, ?_⟩
  · intro a b hlen h1 h2
    rw [compute_similarity, if_pos hlen, if_neg (by tauto)]
  · intro v hv
    have hpos := dot_self_pos v hv
    have hs : Real.sqrt (dot v v) ≠ 0 := ne_of_gt (Real.sqrt_pos.mpr hpos)
    rw [compute_similarity, if_pos rfl, if_neg (by tauto),
      Real.mul_self_sqrt (le_of_lt hpos)]
    exact div_self (ne_of_gt hpos)
  · intro a b h
    by_cases hlen : a.length = b.length
    · rw [compute_similarity, if_pos hlen, if_pos h]
    · rw [compute_similarity, if_neg hlen]

/-- C6 witness: the theorem at concrete vectors: self-similarity of `[1]`
is 1, and similarity against the zero vector `[0]` is 0. -/
theorem compute_similarity_ok_witness :
    compute_similarity [(1 : ℝ)] [(1 : ℝ)] = 1 ∧
    compute_similarity [(0 : ℝ)] [(5 : ℝ)] = 0 := by
  constructor
  · exact compute_similarity_ok.2.1 [(1 : ℝ)] ⟨1, by simp, one_ne_zero⟩
  · apply compute_similarity_ok.2.2
    left
    simp [dot]

/-! ## Lemmas about the stable descending sort -/

theorem mem_insert_desc {x y : Nat × ℝ} :
    ∀ {l : List (Nat × ℝ)}, y ∈ insert_desc x l ↔ y = x ∨ y ∈ l := by
  intro l
  induction l with
  | nil => simp [insert_desc]
  | cons z zs ih =>
    by_cases h : x.2 < z.2
    · simp only [insert_desc, if_pos h, List.mem_cons, ih]
      tauto
    · simp only [insert_desc, if_neg h, List.mem_cons]

theorem pairwise_insert_desc {x : Nat × ℝ} :
    ∀ {l : List (Nat × ℝ)}, l.Pairwise simR → (∀ y ∈ l, x.1 < y.1) →
      (insert_desc x l).Pairwise simR := by
  intro l
  induction l with
  | nil =>
    intro _ _
    simp [insert_desc]
  | cons z zs ih =>
    intro hp hx
    rw [List.pairwise_cons] at hp
    obtain ⟨hz, hzs⟩ := hp
    by_cases h : x.2 < z.2
    · simp only [insert_desc, if_pos h]
      rw [List.pairwise_cons]
      constructor
      · intro y hy
        rcases mem_insert_desc.mp hy with rfl | hmem
        · exact Or.inl h
        · exact hz y hmem
      · exact ih hzs (fun y hy => hx y (List.mem_cons_of_mem _ hy))
    · simp only [insert_desc, if_neg h]
      push_neg at h
      rw [List.pairwise_cons]
      constructor
      · intro y hy
        rcases List.mem_cons.mp hy with rfl | hmem
        · rcases lt_or_eq_of_le h with hlt | heq
          · exact Or.inl hlt
          · exact Or.inr ⟨heq, hx y (List.mem_cons_self y zs)⟩
        · have hzy := hz y hmem
          have hyx : y.2 ≤ x.2 := by
            rcases hzy with h1 | ⟨h1, _⟩
            · exact le_trans (le_of_lt h1) h
            · exact h1 ▸ h
          rcases lt_or_eq_of_le hyx with hlt | heq
          · exact Or.inl hlt
          · exact Or.inr ⟨heq, hx y (List.mem_cons_of_mem _ hmem)⟩
      · exact List.pairwise_cons.mpr ⟨hz, hzs⟩

theorem mem_sort_desc {y : Nat × ℝ} :
    ∀ {l : List (Nat × ℝ)}, y ∈ sort_desc l ↔ y ∈ l := by
  intro l
  induction l with
  | nil => simp [sort_desc]
  | cons x xs ih => simp [sort_desc, mem_insert_desc, ih]

theorem pairwise_sort_desc :
    ∀ {l : List (Nat × ℝ)}, l.Pairwise (fun a b => a.1 < b.1) →
      (sort_desc l).Pairwise simR := by
  intro l
  induction l with
  | nil =>
    intro _
    simp [sort_desc]
  | cons x xs ih =>
    intro hp
    rw [List.pairwise_cons] at hp
    exact pairwise_insert_desc (ih hp.2) (fun y hy => hp.1 y (mem_sort_desc.mp hy))

theorem score_list_fst_ge (q : List ℝ) :
    ∀ (cs : List (List ℝ)) (i : Nat), ∀ p ∈ score_list q i cs, i ≤ p.1 := by
  intro cs
  induction cs with
  | nil =>
    intro i p hp
    simp [score_list] at hp
  | cons c cs ih =>
    intro i p hp
    simp only [score_list] at hp
    rcases List.mem_cons.mp hp with rfl | hmem
    · exact le_rfl
    · exact le_trans (Nat.le_succ i) (ih (i + 1) p hmem)

theorem score_list_pairwise_fst (q : List ℝ) :
    ∀ (cs : List (List ℝ)) (i : Nat),
      (score_list q i cs).Pairwise (fun a b => a.1 < b.1) := by
  intro cs
  induction cs with
  | nil =>
    intro i
    simp [score_list]
  | cons c cs ih =>
    intro i
    simp only [score_list]
    rw [List.pairwise_cons]
    exact ⟨fun p hp => lt_of_lt_of_le (Nat.lt_succ_self i) (score_list_fst_ge q cs (i + 1) p hp),
      ih (i + 1)⟩

theorem score_list_mem_eq (q : List ℝ) :
    ∀ (cs : List (List ℝ)) (i : Nat) (p : Nat × ℝ), p ∈ score_list q i cs →
      ∃ j, ∃ hj : j < cs.length, p.1 = i + j ∧
        p.2 = compute_similarity q (cs.get ⟨j, hj⟩) := by
  intro cs
  induction cs with
  | nil =>
    intro i p hp
    simp [score_list] at hp
  | cons c cs ih =>
    intro i p hp
    simp only [score_list] at hp
    rcases List.mem_cons.mp hp with rfl | hmem
    · exact ⟨0, by simp, by simp, by simp⟩
    · obtain ⟨j, hj, h1, h2⟩ := ih (i + 1) p hmem
      exact ⟨j + 1, by simpa using hj, by omega, by simpa using h2⟩

/-! ## C7: find_most_similar ranking -/

/-- C7: `find_most_similar` returns at most `top_k` pairs, sorted
non-increasing by score; equal-score pairs keep strictly increasing
candidate indices (the stable order, since the scoring loop enumerates
candidates in input order); and every returned pair carries the cosine
similarity of the query with the candidate at its index. -/
theorem find_most_similar_ok (q : List ℝ) (cands : List (List ℝ)) (top_k : Nat) :
    (find_most_similar q cands top_k).length ≤ top_k ∧
    (find_most_similar q cands top_k).Pairwise (fun a b => b.2 ≤ a.2) ∧
    (find_most_similar q cands top_k).Pairwise (fun a b => a.2 = b.2 → a.1 < b.1) ∧
    ∀ p ∈ find_most_similar q cands top_k,
      ∃ h : p.1 < cands.length, p.2 = compute_similarity q (cands.get ⟨p.1, h⟩) := by
  have hpair : (sort_desc (score_list q 0 cands)).Pairwise simR :=
    pairwise_sort_desc (score_list_pairwise_fst q cands 0)
  have htake : (find_most_similar q cands top_k).Pairwise simR :=
    hpair.sublist (List.take_sublist _ _)
  refine ⟨?_, ?_, ?_, ?_⟩
  · simp only [find_most_similar, List.length_take]
    omega
  · refine htake.imp ?_
    intro a b h
    rcases h with h | ⟨h, _⟩
    · exact le_of_lt h
    · exact le_of_eq h
  · refine htake.imp ?_
    intro a b h heq
    rcases h with h | ⟨_, h⟩
    · exact absurd (heq ▸ h) (lt_irrefl _)
    · exact h
  · intro p hp
    obtain ⟨p1, p2⟩ := p
    have hmem : (p1, p2) ∈ score_list q 0 cands :=
      mem_sort_desc.mp (List.take_subset _ _ hp)
    obtain ⟨j, hj, h1, h2⟩ := score_list_mem_eq q cands 0 (p1, p2) hmem
    simp only [Nat.zero_add] at h1
    subst h1
    exact ⟨hj, h2⟩

/-! ## Lemmas about the vector store upsert -/

theorem mk_points_nil_left (vs : List (List ℝ)) (ps : List Payload) :
    mk_points [] vs ps = [] := by
  cases vs <;> cases ps <;> rfl

theorem mk_points_nil_mid (i : String) (is : List String) (ps : List Payload) :
    mk_points (i :: is) [] ps = [] := by
  cases ps <;> rfl

theorem mk_points_nil_right (i : String) (is : List String) (v : List ℝ)
    (vs : List (List ℝ)) : mk_points (i :: is) (v :: vs) [] = [] := rfl

theorem upsert_point_fresh (store : List Point) (p : Point)
    (h : ∀ q ∈ store, q.id ≠ p.id) : upsert_point store p = store ++ [p] := by
  rw [upsert_point, if_neg]
  simp only [List.any_eq_true, beq_iff_eq, not_exists, not_and]
  exact fun q hq => h q hq

theorem upsert_points_fresh :
    ∀ (ps store : List Point),
      ps.Pairwise (fun a b => a.id ≠ b.id) →
      (∀ p ∈ ps, ∀ q ∈ store, q.id ≠ p.id) →
      upsert_points store ps = store ++ ps := by
  intro ps
  induction ps with
  | nil =>
    intro store _ _
    simp [upsert_points]
  | cons p ps ih =>
    intro store hpw hfresh
    rw [List.pairwise_cons] at hpw
    have h1 : upsert_point store p = store ++ [p] :=
      upsert_point_fresh store p (fun q hq => hfresh p (List.mem_cons_self p ps) q hq)
    have h2 : ∀ r ∈ ps, ∀ q ∈ store ++ [p], q.id ≠ r.id := by
      intro r hr q hq
      rcases List.mem_append.mp hq with hq1 | hq2
      · exact hfresh r (List.mem_cons_of_mem _ hr) q hq1
      · rw [List.mem_singleton] at hq2
        subst hq2
        exact hpw.1 r hr
    calc upsert_points store (p :: ps)
        = upsert_points (upsert_point store p) ps := by
          simp [upsert_points]
      _ = upsert_points (store ++ [p]) ps := by rw [h1]
      _ = (store ++ [p]) ++ ps := ih (store ++ [p]) hpw.2 h2
      _ = store ++ p :: ps := by simp

theorem mk_points_length :
    ∀ (is : List String) (vs : List (List ℝ)) (ps : List Payload),
      is.length = vs.length → ps.length = vs.length →
      (mk_points is vs ps).length = vs.length := by
  intro is
  induction is with
  | nil =>
    intro vs ps h1 _
    cases vs with
    | nil => rfl
    | cons v vs => simp at h1
  | cons i is ih =>
    intro vs ps h1 h2
    cases vs with
    | nil => simp at h1
    | cons v vs =>
      cases ps with
      | nil => simp at h2
      | cons p ps =>
        simp only [mk_points, List.length_cons] at h1 h2 ⊢
        rw [ih vs ps (by omega) (by omega)]

theorem mk_points_mem_id :
    ∀ (is : List String) (vs : List (List ℝ)) (ps : List Payload) (pt : Point),
      pt ∈ mk_points is vs ps → pt.id ∈ is := by
  intro is
  induction is with
  | nil =>
    intro vs ps pt hpt
    rw [mk_points_nil_left] at hpt
    simp at hpt
  | cons i is ih =>
    intro vs ps pt hpt
    cases vs with
    | nil =>
      rw [mk_points_nil_mid] at hpt
      simp at hpt
    | cons v vs =>
      cases ps with
      | nil =>
        rw [mk_points_nil_right] at hpt
        simp at hpt
      | cons p ps =>
        simp only [mk_points] at hpt
        rcases List.mem_cons.mp hpt with rfl | hm
        · exact List.mem_cons_self _ _
        · exact List.mem_cons_of_mem _ (ih vs ps pt hm)

theorem mk_points_pairwise_id :
    ∀ (is : List String) (vs : List (List ℝ)) (ps : List Payload),
      is.Pairwise (fun a b => a ≠ b) →
      (mk_points is vs ps).Pairwise (fun a b => a.id ≠ b.id) := by
  intro is
  induction is with
  | nil =>
    intro vs ps _
    rw [mk_points_nil_left]
    exact List.Pairwise.nil
  | cons i is ih =>
    intro vs ps hpw
    cases vs with
    | nil =>
      rw [mk_points_nil_mid]
      exact List.Pairwise.nil
    | cons v vs =>
      cases ps with
      | nil =>
        rw [mk_points_nil_right]
        exact List.Pairwise.nil
      | cons p ps =>
        rw [List.pairwise_cons] at hpw
        simp only [mk_points]
        rw [List.pairwise_cons]
        refine ⟨?_, ih vs ps hpw.2⟩
        intro pt hpt
        exact hpw.1 pt.id (mk_points_mem_id is vs ps pt hpt)

theorem add_vectors_none_appends (gen : Nat → String) (store : List Point)
    (vs : List (List ℝ)) (ps : List Payload)
    (hinj : ∀ i j, i < vs.length → j < vs.length → gen i = gen j → i = j)
    (hfresh : ∀ i, i < vs.length → ∀ q ∈ store, q.id ≠ gen i)
    (hlen : ps.length = vs.length) :
    (add_vectors gen store vs ps none).length = store.length + vs.length := by
  have hids : ((List.range vs.length).map gen).Pairwise (fun a b => a ≠ b) := by
    rw [List.pairwise_map, List.pairwise_iff_getElem]
    intro i j hi hj hij heq
    rw [List.getElem_range, List.getElem_range] at heq
    have hi2 : i < vs.length := by simpa using hi
    have hj2 : j < vs.length := by simpa using hj
    have := hinj i j hi2 hj2 heq
    omega
  have hpw := mk_points_pairwise_id _ vs ps hids
  have hfr : ∀ p ∈ mk_points ((List.range vs.length).map gen) vs ps,
      ∀ q ∈ store, q.id ≠ p.id := by
    intro p hp q hq
    have hid := mk_points_mem_id _ vs ps p hp
    obtain ⟨k, hk, hgk⟩ := List.mem_map.mp hid
    have hkn : k < vs.length := List.mem_range.mp hk
    rw [← hgk]
    exact hfresh k hkn q hq
  have heq : add_vectors gen store vs ps none
      = store ++ mk_points ((List.range vs.length).map gen) vs ps := by
    rw [add_vectors]
    exact upsert_points_fresh _ store hpw hfr
  rw [heq, List.length_append, mk_points_length _ vs ps (by simp) hlen]

/-! ## C9: omitted ids append, re-indexing is not idempotent -/

/-- C9 counterexample: the claim "running the project-indexing pipeline
twice on an unchanged project ... strictly increases the stored vector
count" is false for a project whose run produces zero vectors: on a run
over zero files, both indexing passes upsert zero points and the stored
count stays at zero, so it does not strictly increase. -/
theorem reindex_cex :
    ¬ ((index_project_store env0 genW1 []).length
        < (index_project_store env0 genW2 (index_project_store env0 genW1 [])).length) := by
  have h1 : index_project_store env0 genW1 [] = [] := rfl
  have h2 : index_project_store env0 genW2 [] = [] := rfl
  rw [h1, h2]
  simp

/-- C9 (amended): when `add_vectors` is called with the ids argument
omitted, one fresh id is generated per point (modelled by the generator
`gen`, with the uuid4 uniqueness contract as the injectivity and freshness
hypotheses), so every point is appended and the final upsert of a run grows
the store by exactly the number of accumulated vectors; running the
pipeline twice on an unchanged project therefore adds the per-run vector
count twice, and strictly increases the stored count whenever the run
produces at least one vector (a run producing zero vectors leaves the count
unchanged). -/
theorem reindex_amended :
    ∀ (env : IndexEnv) (gen1 gen2 : Nat → String) (store : List Point),
      (∀ i j, i < (index_accum env).length → j < (index_accum env).length →
          gen1 i = gen1 j → i = j) →
      (∀ i, i < (index_accum env).length → ∀ q ∈ store, q.id ≠ gen1 i) →
      (∀ i j, i < (index_accum env).length → j < (index_accum env).length →
          gen2 i = gen2 j → i = j) →
      (∀ i, i < (index_accum env).length →
          ∀ q ∈ index_project_store env gen1 store, q.id ≠ gen2 i) →
      (index_project_store env gen1 store).length
          = store.length + (index_accum env).length ∧
      (index_project_store env gen2 (index_project_store env gen1 store)).length
          = store.length + 2 * (index_accum env).length ∧
      (index_accum env ≠ [] →
          store.length < (index_project_store env gen1 store).length) := by
  intro env gen1 gen2 store hinj1 hfresh1 hinj2 hfresh2
  have hvlen : ((index_accum env).map Prod.fst).length = (index_accum env).length := by
    simp
  have hplen : ((index_accum env).map Prod.snd).length
      = ((index_accum env).map Prod.fst).length := by simp
  have h1 : (index_project_store env gen1 store).length
      = store.length + (index_accum env).length := by
    rw [index_project_store,
      add_vectors_none_appends gen1 store _ _
        (by rw [hvlen]; exact hinj1)
        (by rw [hvlen]; exact hfresh1) hplen, hvlen]
  have h2 : (index_project_store env gen2 (index_project_store env gen1 store)).length
      = store.length + 2 * (index_accum env).length := by
    rw [index_project_store,
      add_vectors_none_appends gen2 (index_project_store env gen1 store) _ _
        (by rw [hvlen]; exact hinj2)
        (by rw [hvlen]; exact hfresh2) hplen, hvlen, h1]
    omega
  refine ⟨h1, h2, ?_⟩
  intro hne
  have : 0 < (index_accum env).length := List.length_pos.mpr hne
  omega

/-- C9 witness: the amended theorem at a one-file, one-chunk run over an
empty store: after two passes with fresh ids the store holds two points,
and the first pass strictly grows the store. -/
theorem reindex_amended_witness :
    (index_project_store envW9 genW2 (index_project_store envW9 genW1 [])).length = 2 ∧
    (0 : Nat) < (index_project_store envW9 genW1 []).length := by
  have hacc : (index_accum envW9).length = 1 := rfl
  have hrun1 : index_project_store envW9 genW1 []
      = [⟨"id1", [], ⟨"p", "f.py", "code_block", 1, 1, ['x']⟩⟩] := rfl
  have h := reindex_amended envW9 genW1 genW2 []
    (fun i j hi hj _ => by omega)
    (fun i _ q hq => by simp at hq)
    (fun i j hi hj _ => by omega)
    (fun i _ q hq => by
      rw [hrun1, List.mem_singleton] at hq
      subst hq
      simp only [genW2]
      decide)
  refine ⟨?_, ?_⟩
  · have h2 := h.2.1
    simp only [List.length_nil, Nat.zero_add] at h2
    omega
  · have hne : index_accum envW9 ≠ [] := by
      intro habs
      rw [habs] at hacc
      simp at hacc
    simpa using h.2.2 hne

end CodeAssist

